import Mathlib

/-!
# Verification of the lasso path-continuation driver

Shallow embedding of `src/examples/cpp_sp/lasso_path.cpp` (the function
`LassoPath` together with its two reduction helpers `MaxDiff` and `Asum`).
Vector arithmetic is embedded over `ℚ` (the code's `T` is an ordered field
in exact-arithmetic reading of the spec); the λ schedule, which uses
`exp`/`log`, is embedded over `ℝ`.
-/

namespace LassoPathSpec

/-- `MaxDiff` (lasso_path.cpp, lines 11–18): running maximum of the
absolute elementwise difference, accumulator starting at 0; the loop
reads `v1[i]` and `v2[i]` for `i < v1.size()`, which for equal-length
vectors is exactly the zip of the two lists. -/
def MaxDiff (v1 v2 : List ℚ) : ℚ :=
  (v1.zip v2).foldl (fun m p => max m |p.1 - p.2|) 0

/-- `Asum` (lasso_path.cpp, lines 20–27): running sum of absolute values,
accumulator starting at 0. -/
def Asum (v : List ℚ) : ℚ :=
  v.foldl (fun a t => a + |t|) 0

/-- The early-stop test of the driver (lasso_path.cpp, line 94):
`MaxDiff(&x, &x_last) < 1e-3 * Asum(&x)`. -/
def stopTest (x xlast : List ℚ) : Bool :=
  decide (MaxDiff x xlast < (1 / 1000) * Asum x)

/-- One `u[k] += v` update (out-of-range `k` leaves the vector unchanged,
matching that such an access never occurs for valid CSR input). -/
def addAt (u : List ℚ) (k : ℕ) (v : ℚ) : List ℚ :=
  u.set k (u.getD k 0 + v)

/-- The inner loop of the Aᵗb accumulation: for `j` in `[lo, hi)`,
`u[col_ind[j]] += val[j] * b_i`. -/
def rowUpdate (val : List ℚ) (colInd : List ℕ) (bi : ℚ) (u : List ℚ)
    (lo hi : ℕ) : List ℚ :=
  (List.range' lo (hi - lo)).foldl
    (fun w j => addAt w (colInd.getD j 0) (val.getD j 0 * bi)) u

/-- The outer loop: `u` starts as `n` zeros and every row `i < m`
contributes its nonzeros, with row range `[row_ptr[i], row_ptr[i+1])`. -/
def computeU (val : List ℚ) (colInd : List ℕ) (rowPtr : List ℕ)
    (b : List ℚ) (m n : ℕ) : List ℚ :=
  (List.range m).foldl
    (fun w i => rowUpdate val colInd (b.getD i 0) w
      (rowPtr.getD i 0) (rowPtr.getD (i + 1) 0))
    (List.replicate n 0)

/-- `lambda_max = max over the entries of |u[i]|`, accumulator starting
at 0 (lasso_path.cpp, lines 64–66). -/
def lambdaMax (u : List ℚ) : ℚ :=
  u.foldl (fun l a => max l |a|) 0

/-- Mathematical entry `A i j` of the CSR matrix: the sum of the stored
values in row `i`'s range whose column index is `j`. -/
def csrEntry (val : List ℚ) (colInd : List ℕ) (rowPtr : List ℕ)
    (i j : ℕ) : ℚ :=
  ((List.range' (rowPtr.getD i 0) (rowPtr.getD (i + 1) 0 - rowPtr.getD i 0)).map
    (fun k => if colInd.getD k 0 = j then val.getD k 0 else 0)).sum

/-- Mathematical `(Aᵗb)_j = Σ_{i<m} A i j · b i`. -/
def matTvec (val : List ℚ) (colInd : List ℕ) (rowPtr : List ℕ)
    (b : List ℚ) (m j : ℕ) : ℚ :=
  ((List.range m).map (fun i => csrEntry val colInd rowPtr i j * b.getD i 0)).sum

/- ### The λ schedule (lasso_path.cpp, lines 85–86)

`lambda = exp((log(lambda_max) * (nlambda - 1 - i)
              + 1e-2 * log(lambda_max) * i) / (nlambda - 1))`,
with `nlambda - 1 - i` computed in ℕ (unsigned) exactly as in the source;
for `i < nlambda` this agrees with the integer subtraction. -/
noncomputable def lambdaSched (lmax : ℝ) (nlambda i : ℕ) : ℝ :=
  Real.exp ((Real.log lmax * ((nlambda - 1 - i : ℕ) : ℝ)
    + (1 / 100) * Real.log lmax * (i : ℝ)) / ((nlambda - 1 : ℕ) : ℝ))

/-- The list of λ values the loop computes when no early stop fires:
one per step `i ∈ [0, nlambda)`.  The loop header performs no test on
`lambda_max`; this construction is unconditional, exactly as in the
source. -/
noncomputable def pathLambdas (lmax : ℝ) (nlambda : ℕ) : List ℝ :=
  (List.range nlambda).map (fun i => lambdaSched lmax nlambda i)

/- ### The path-driver loop (lasso_path.cpp, lines 84–97)

The solver is external (`Solve(&pogs_data)`); its successive outputs are
modelled as an arbitrary sequence `xs : ℕ → List ℚ` (output of step `i`
is `xs i`, which may depend on the warm start in any way).  `xl` is the
`x_last` buffer, initialised before the loop to the sentinel vector and
assigned `x_last = x` only when the stop test did not fire.  The fuel
argument is the number of remaining schedule entries. -/
def pathGo (xs : ℕ → List ℚ) (xl : List ℚ) (i : ℕ) : ℕ → ℕ
  | 0 => 0
  | n + 1 => 1 + (if stopTest (xs i) xl then 0 else pathGo xs (xs i) (i + 1) n)

/-- Number of path steps executed (solver invocations) by the driver
loop with schedule length `nlambda`, starting from `x_last = x0`. -/
def pathSteps (xs : ℕ → List ℚ) (x0 : List ℚ) (nlambda : ℕ) : ℕ :=
  pathGo xs x0 0 nlambda

/-- Trace of the loop: for every executed step, the step index, the
iterate that the solver just produced, and the `x_last` buffer contents
that the stop test compared it against. -/
def pathTraceGo (xs : ℕ → List ℚ) (xl : List ℚ) (i : ℕ) :
    ℕ → List (ℕ × List ℚ × List ℚ)
  | 0 => []
  | n + 1 =>
      (i, xs i, xl) ::
        (if stopTest (xs i) xl then [] else pathTraceGo xs (xs i) (i + 1) n)

def pathTrace (xs : ℕ → List ℚ) (x0 : List ℚ) (nlambda : ℕ) :
    List (ℕ × List ℚ × List ℚ) :=
  pathTraceGo xs x0 0 nlambda

/-- The reference value the stop test should see at step `k`: the
sentinel buffer before step 0, afterwards the previous step's iterate. -/
def xlastSeq (xs : ℕ → List ℚ) (x0 : List ℚ) : ℕ → List ℚ
  | 0 => x0
  | k + 1 => xs k

/-- The stop test outcome at step `k` of the schedule. -/
def fireAt (xs : ℕ → List ℚ) (x0 : List ℚ) (k : ℕ) : Bool :=
  stopTest (xs k) (xlastSeq xs x0 k)

inductive FnKind where
  | kSquare : FnKind
  | kAbs : FnKind
deriving DecidableEq, Inhabited

/-- Modelled from the spec: FunctionDescriptor `{kind, scale, offset}`
(spec §3); the `scale` field carries the current λ for penalty
descriptors. -/
structure FunctionObj where
  kind : FnKind
  scale : ℚ
  offset : ℚ
deriving DecidableEq, Inhabited

/-- Row (loss) descriptors: `(kSquare, 1, b[i])` for each row
(lasso_path.cpp, lines 73–75). -/
def buildF (b : List ℚ) : List FunctionObj :=
  b.map (fun bi => { kind := FnKind.kSquare, scale := 1, offset := bi })

/-- Column (penalty) descriptors: kind `kAbs`, default scale and offset
(lasso_path.cpp, lines 77–79). -/
def buildG (n : ℕ) : List FunctionObj :=
  List.replicate n { kind := FnKind.kAbs, scale := 1, offset := 0 }

/-- The per-step scale-update loop
`for (i = 0; i < n; ++i) pogs_data.g[i].c = lambda`
(lasso_path.cpp, lines 89–90). -/
def setScales (g : List FunctionObj) (lam : ℚ) : List FunctionObj :=
  (List.range g.length).foldl
    (fun gs i => gs.set i { gs.getD i default with scale := lam }) g

/-- The driver-owned problem state: matrix, observations, descriptor
lists and solution buffers (spec §3 ProblemState; lasso_path.cpp,
lines 68–79). -/
structure DriverState where
  f : List FunctionObj
  g : List FunctionObj
  Aval : List ℚ
  AcolInd : List ℕ
  ArowPtr : List ℕ
  b : List ℚ
  x : List ℚ
  y : List ℚ

/-- Effect of one path step on the driver state: the column scales are
overwritten with the step's λ, then the solver writes `x` and `y`
(modelled as the arbitrary pair `xy`); nothing else is touched
(lasso_path.cpp, lines 87–93). -/
def pathStepState (lam : ℚ) (xy : List ℚ × List ℚ) (s : DriverState) : DriverState :=
  { s with g := setScales s.g lam, x := xy.1, y := xy.2 }

/-- Iterating path steps over a list of (λ, solver output) pairs. -/
def applyPath (steps : List (ℚ × List ℚ × List ℚ)) (s : DriverState) : DriverState :=
  steps.foldl (fun t p => pathStepState p.1 p.2 t) s

/-- A concrete driver state with one column descriptor, used to
instantiate the frame theorem. -/
def exState : DriverState :=
  { f := [], g := [{ kind := FnKind.kAbs, scale := 1, offset := 0 }],
    Aval := [], AcolInd := [], ArowPtr := [], b := [], x := [], y := [] }

/- ### Helper lemmas about the two fold shapes used by the reductions -/

theorem maxDiffFold_init_le :
    ∀ (l : List (ℚ × ℚ)) (i : ℚ), i ≤ l.foldl (fun m p => max m |p.1 - p.2|) i := by
  intro l
  induction l with
  | nil => intro i; exact le_refl i
  | cons a t ih =>
      intro i
      exact le_trans (le_max_left i |a.1 - a.2|) (ih (max i |a.1 - a.2|))

theorem maxDiffFold_le_of_mem :
    ∀ (l : List (ℚ × ℚ)) (i : ℚ) (a : ℚ × ℚ), a ∈ l →
      |a.1 - a.2| ≤ l.foldl (fun m p => max m |p.1 - p.2|) i := by
  intro l
  induction l with
  | nil => intro i a ha; cases ha
  | cons b t ih =>
      intro i a ha
      rcases List.mem_cons.mp ha with h | h
      · subst h
        exact le_trans (le_max_right i |a.1 - a.2|)
          (maxDiffFold_init_le t (max i |a.1 - a.2|))
      · exact ih (max i |b.1 - b.2|) a h

theorem foldl_add_abs (v : List ℚ) :
    ∀ i : ℚ, v.foldl (fun a t => a + |t|) i = i + (v.map (fun t => |t|)).sum := by
  induction v with
  | nil => intro i; simp
  | cons b t ih =>
      intro i
      simp only [List.foldl_cons, List.map_cons, List.sum_cons]
      rw [ih (i + |b|)]
      ring

/-- `Asum` is the sum of absolute values. -/
theorem Asum_eq_sum_abs (v : List ℚ) : Asum v = (v.map (fun t => |t|)).sum := by
  unfold Asum
  rw [foldl_add_abs v 0, zero_add]

/-- `MaxDiff` is nonnegative. -/
theorem MaxDiff_nonneg (v1 v2 : List ℚ) : 0 ≤ MaxDiff v1 v2 := by
  unfold MaxDiff
  exact maxDiffFold_init_le (v1.zip v2) 0

/-- Every componentwise absolute difference is bounded by `MaxDiff`. -/
theorem abs_sub_le_MaxDiff (v1 v2 : List ℚ) (p : ℚ × ℚ) (hp : p ∈ v1.zip v2) :
    |p.1 - p.2| ≤ MaxDiff v1 v2 := by
  unfold MaxDiff
  exact maxDiffFold_le_of_mem (v1.zip v2) 0 p hp

/-- The boolean stop test holds exactly when the strict inequality of the
source holds. -/
theorem stopTest_iff (x xlast : List ℚ) :
    stopTest x xlast = true ↔ MaxDiff x xlast < (1 / 1000) * Asum x := by
  simp [stopTest]

/- ### λ_max computation (lasso_path.cpp, lines 57–66)

`u[col_ind[j]] += val[j] * b[i]` over the CSR row ranges, then
`lambda_max = max(lambda_max, |u[i]|)` starting from 0. -/

theorem absFold_init_le :
    ∀ (l : List ℚ) (i : ℚ), i ≤ l.foldl (fun m a => max m |a|) i := by
  intro l
  induction l with
  | nil => intro i; exact le_refl i
  | cons a t ih =>
      intro i
      exact le_trans (le_max_left i |a|) (ih (max i |a|))

theorem absFold_le_of_mem :
    ∀ (l : List ℚ) (i : ℚ) (a : ℚ), a ∈ l →
      |a| ≤ l.foldl (fun m b => max m |b|) i := by
  intro l
  induction l with
  | nil => intro i a ha; cases ha
  | cons b t ih =>
      intro i a ha
      rcases List.mem_cons.mp ha with h | h
      · subst h
        exact le_trans (le_max_right i |a|) (absFold_init_le t (max i |a|))
      · exact ih (max i |b|) a h

theorem absFold_attained :
    ∀ (l : List ℚ) (i : ℚ),
      l.foldl (fun m a => max m |a|) i = i ∨
        ∃ a ∈ l, l.foldl (fun m b => max m |b|) i = |a| := by
  intro l
  induction l with
  | nil => intro i; exact Or.inl rfl
  | cons b t ih =>
      intro i
      rcases ih (max i |b|) with h | h
      · rcases max_cases i |b| with ⟨hm, _⟩ | ⟨hm, _⟩
        · exact Or.inl (by rw [List.foldl_cons, h, hm])
        · exact Or.inr ⟨b, List.mem_cons_self b t, by rw [List.foldl_cons, h, hm]⟩
      · rcases h with ⟨a, ha, hval⟩
        exact Or.inr ⟨a, List.mem_cons_of_mem b ha, by rw [List.foldl_cons]; exact hval⟩

/-- `lambdaMax u` bounds every `|u_j|`. -/
theorem lambdaMax_is_bound (u : List ℚ) (a : ℚ) (ha : a ∈ u) :
    |a| ≤ lambdaMax u := by
  unfold lambdaMax
  exact absFold_le_of_mem u 0 a ha

/-- `lambdaMax u` is 0 or attained as some `|u_j|`. -/
theorem lambdaMax_attained (u : List ℚ) :
    lambdaMax u = 0 ∨ ∃ a ∈ u, lambdaMax u = |a| := by
  unfold lambdaMax
  exact absFold_attained u 0

theorem addAt_length (u : List ℚ) (k : ℕ) (v : ℚ) :
    (addAt u k v).length = u.length := by
  simp [addAt]

theorem addAt_getD (u : List ℚ) (k : ℕ) (v : ℚ) (j : ℕ) (hk : k < u.length) :
    (addAt u k v).getD j 0 = u.getD j 0 + (if k = j then v else 0) := by
  unfold addAt
  by_cases h : k = j
  · subst h
    simp [List.getD_eq_getElem?_getD, List.getElem?_set, hk,
      List.getElem?_eq_getElem hk]
  · simp [List.getD_eq_getElem?_getD, List.getElem?_set, h]

theorem rowFold_length (val : List ℚ) (colInd : List ℕ) (bi : ℚ) :
    ∀ (L : List ℕ) (u : List ℚ),
      (L.foldl (fun w k => addAt w (colInd.getD k 0) (val.getD k 0 * bi)) u).length
        = u.length := by
  intro L
  induction L with
  | nil => intro u; rfl
  | cons k L ih =>
      intro u
      rw [List.foldl_cons, ih, addAt_length]

theorem rowFold_getD (val : List ℚ) (colInd : List ℕ) (bi : ℚ) (j : ℕ) :
    ∀ (L : List ℕ) (u : List ℚ),
      (∀ k ∈ L, colInd.getD k 0 < u.length) →
      (L.foldl (fun w k => addAt w (colInd.getD k 0) (val.getD k 0 * bi)) u).getD j 0
        = u.getD j 0
          + (L.map (fun k => if colInd.getD k 0 = j then val.getD k 0 * bi else 0)).sum := by
  intro L
  induction L with
  | nil => intro u _; simp
  | cons k L ih =>
      intro u hb
      rw [List.foldl_cons, List.map_cons, List.sum_cons]
      rw [ih (addAt u (colInd.getD k 0) (val.getD k 0 * bi))
        (fun q hq => by
          rw [addAt_length]
          exact hb q (List.mem_cons_of_mem k hq))]
      rw [addAt_getD u (colInd.getD k 0) (val.getD k 0 * bi) j
        (hb k (List.mem_cons_self k L))]
      rw [add_assoc]

/-- `rowUpdate` preserves the length of `u`. -/
theorem rowUpdate_length (val : List ℚ) (colInd : List ℕ) (bi : ℚ)
    (u : List ℚ) (lo hi : ℕ) :
    (rowUpdate val colInd bi u lo hi).length = u.length := by
  unfold rowUpdate
  exact rowFold_length val colInd bi (List.range' lo (hi - lo)) u

/-- Entrywise effect of one row's accumulation. -/
theorem rowUpdate_getD (val : List ℚ) (colInd : List ℕ) (bi : ℚ)
    (u : List ℚ) (lo hi j : ℕ)
    (hb : ∀ k ∈ List.range' lo (hi - lo), colInd.getD k 0 < u.length) :
    (rowUpdate val colInd bi u lo hi).getD j 0
      = u.getD j 0
        + ((List.range' lo (hi - lo)).map
            (fun k => if colInd.getD k 0 = j then val.getD k 0 * bi else 0)).sum := by
  unfold rowUpdate
  exact rowFold_getD val colInd bi j (List.range' lo (hi - lo)) u hb

theorem ite_mul_sum (val : List ℚ) (colInd : List ℕ) (j : ℕ) (bi : ℚ) :
    ∀ L : List ℕ,
      (L.map (fun k => if colInd.getD k 0 = j then val.getD k 0 * bi else 0)).sum
        = (L.map (fun k => if colInd.getD k 0 = j then val.getD k 0 else 0)).sum * bi := by
  intro L
  induction L with
  | nil => simp
  | cons k L ih =>
      rw [List.map_cons, List.sum_cons, List.map_cons, List.sum_cons, ih]
      by_cases h : colInd.getD k 0 = j
      · rw [if_pos h, if_pos h]; ring
      · rw [if_neg h, if_neg h]; ring

theorem colFold_length (val : List ℚ) (colInd : List ℕ) (rowPtr : List ℕ)
    (b : List ℚ) :
    ∀ (R : List ℕ) (u : List ℚ),
      (R.foldl (fun w i => rowUpdate val colInd (b.getD i 0) w
        (rowPtr.getD i 0) (rowPtr.getD (i + 1) 0)) u).length = u.length := by
  intro R
  induction R with
  | nil => intro u; rfl
  | cons i R ih =>
      intro u
      rw [List.foldl_cons, ih, rowUpdate_length]

theorem colFold_getD (val : List ℚ) (colInd : List ℕ) (rowPtr : List ℕ)
    (b : List ℚ) (j : ℕ) :
    ∀ (R : List ℕ) (u : List ℚ),
      (∀ i ∈ R, ∀ k ∈ List.range' (rowPtr.getD i 0)
          (rowPtr.getD (i + 1) 0 - rowPtr.getD i 0), colInd.getD k 0 < u.length) →
      (R.foldl (fun w i => rowUpdate val colInd (b.getD i 0) w
        (rowPtr.getD i 0) (rowPtr.getD (i + 1) 0)) u).getD j 0
        = u.getD j 0
          + (R.map (fun i => csrEntry val colInd rowPtr i j * b.getD i 0)).sum := by
  intro R
  induction R with
  | nil => intro u _; simp
  | cons i R ih =>
      intro u hb
      rw [List.foldl_cons, List.map_cons, List.sum_cons]
      rw [ih (rowUpdate val colInd (b.getD i 0) u (rowPtr.getD i 0) (rowPtr.getD (i + 1) 0))
        (fun q hq k hk => by
          rw [rowUpdate_length]
          exact hb q (List.mem_cons_of_mem i hq) k hk)]
      rw [rowUpdate_getD val colInd (b.getD i 0) u (rowPtr.getD i 0)
        (rowPtr.getD (i + 1) 0) j (hb i (List.mem_cons_self i R))]
      rw [ite_mul_sum]
      unfold csrEntry
      rw [add_assoc]

/-- The accumulation loop of the driver computes exactly the mathematical
`Aᵗb`: entry `j` of `computeU` is `Σ_{i<m} A i j · b i`. -/
theorem computeU_correct (val : List ℚ) (colInd : List ℕ) (rowPtr : List ℕ)
    (b : List ℚ) (m n : ℕ)
    (hcol : ∀ i ∈ List.range m, ∀ k ∈ List.range' (rowPtr.getD i 0)
      (rowPtr.getD (i + 1) 0 - rowPtr.getD i 0), colInd.getD k 0 < n)
    (j : ℕ) :
    (computeU val colInd rowPtr b m n).getD j 0 = matTvec val colInd rowPtr b m j := by
  unfold computeU matTvec
  rw [colFold_getD val colInd rowPtr b j (List.range m) (List.replicate n 0)
    (fun i hi k hk => by
      rw [List.length_replicate]
      exact hcol i hi k hk)]
  simp [List.getD_eq_getElem?_getD, List.getElem?_replicate]
  split <;> rfl

theorem pathGo_le : ∀ (n : ℕ) (xs : ℕ → List ℚ) (xl : List ℚ) (i : ℕ),
    pathGo xs xl i n ≤ n := by
  intro n
  induction n with
  | zero => intro xs xl i; exact le_refl 0
  | succ n ih =>
      intro xs xl i
      unfold pathGo
      by_cases h : stopTest (xs i) xl = true
      · simp [h]
      · have h2 : stopTest (xs i) xl = false := by simpa using h
        rw [h2]
        simp only [Bool.false_eq_true, if_false]
        have := ih xs (xs i) (i + 1)
        omega

theorem pathGo_all_not :
    ∀ (n : ℕ) (xs : ℕ → List ℚ) (xl : List ℚ) (i : ℕ),
      (∀ j, j < n →
        stopTest (xs (i + j)) (if j = 0 then xl else xs (i + j - 1)) = false) →
      pathGo xs xl i n = n := by
  intro n
  induction n with
  | zero => intro xs xl i _; rfl
  | succ n ih =>
      intro xs xl i hno
      have h0 : stopTest (xs i) xl = false := by
        have := hno 0 (Nat.succ_pos n)
        simpa using this
      unfold pathGo
      rw [h0]
      simp only [if_false, Bool.false_eq_true]
      rw [ih xs (xs i) (i + 1) (fun j hj => by
        have := hno (j + 1) (Nat.succ_lt_succ hj)
        have harith : i + 1 + j = i + (j + 1) := by omega
        have harith2 : i + (j + 1) - 1 = i + j := by omega
        rcases Nat.eq_zero_or_pos j with hj0 | hjpos
        · subst hj0
          simpa [harith, harith2] using this
        · have hjne : j ≠ 0 := Nat.pos_iff_ne_zero.mp hjpos
          have harith3 : i + 1 + j - 1 = i + j := by omega
          simp only [hjne, if_false, harith3]
          simpa [harith, harith2] using this)]
      omega

theorem pathGo_fire :
    ∀ (n : ℕ) (xs : ℕ → List ℚ) (xl : List ℚ) (i : ℕ) (k : ℕ), k < n →
      (∀ j, j < k →
        stopTest (xs (i + j)) (if j = 0 then xl else xs (i + j - 1)) = false) →
      stopTest (xs (i + k)) (if k = 0 then xl else xs (i + k - 1)) = true →
      pathGo xs xl i n = k + 1 := by
  intro n
  induction n with
  | zero => intro xs xl i k hk; omega
  | succ n ih =>
      intro xs xl i k hk hno hfire
      rcases Nat.eq_zero_or_pos k with hk0 | hkpos
      · subst hk0
        have h0 : stopTest (xs i) xl = true := by simpa using hfire
        unfold pathGo
        rw [h0]
        simp
      · obtain ⟨k2, rfl⟩ := Nat.exists_eq_succ_of_ne_zero (Nat.pos_iff_ne_zero.mp hkpos)
        have h0 : stopTest (xs i) xl = false := by
          have := hno 0 (Nat.succ_pos k2)
          simpa using this
        unfold pathGo
        rw [h0]
        simp only [if_false, Bool.false_eq_true]
        rw [ih xs (xs i) (i + 1) k2 (Nat.lt_of_succ_lt_succ hk)
          (fun j hj => by
            have := hno (j + 1) (Nat.succ_lt_succ hj)
            have harith : i + 1 + j = i + (j + 1) := by omega
            rcases Nat.eq_zero_or_pos j with hj0 | hjpos
            · subst hj0
              simpa [harith] using this
            · have hjne : j ≠ 0 := Nat.pos_iff_ne_zero.mp hjpos
              have harith3 : i + 1 + j - 1 = i + j := by omega
              have harith2 : i + (j + 1) - 1 = i + j := by omega
              simp only [hjne, if_false, harith3]
              simpa [harith, harith2] using this)
          (by
            have harith : i + 1 + k2 = i + (k2 + 1) := by omega
            rcases Nat.eq_zero_or_pos k2 with hk20 | hk2pos
            · subst hk20
              simpa [harith] using hfire
            · have hk2ne : k2 ≠ 0 := Nat.pos_iff_ne_zero.mp hk2pos
              have harith3 : i + 1 + k2 - 1 = i + k2 := by omega
              have harith2 : i + (k2 + 1) - 1 = i + k2 := by omega
              simp only [hk2ne, if_false, harith3]
              simpa [harith, harith2] using hfire)]
        omega

theorem pathTraceGo_mem :
    ∀ (n : ℕ) (xs : ℕ → List ℚ) (xl : List ℚ) (i : ℕ) (k : ℕ) (x xl2 : List ℚ),
      (k, x, xl2) ∈ pathTraceGo xs xl i n →
      i ≤ k ∧ x = xs k ∧ xl2 = (if k = i then xl else xs (k - 1)) := by
  intro n
  induction n with
  | zero => intro xs xl i k x xl2 hm; cases hm
  | succ n ih =>
      intro xs xl i k x xl2 hm
      unfold pathTraceGo at hm
      rcases List.mem_cons.mp hm with h | h
      · simp only [Prod.mk.injEq] at h
        obtain ⟨hk, hx, hxl⟩ := h
        subst hk
        exact ⟨le_refl k, hx, by rw [if_pos rfl]; exact hxl⟩
      · by_cases hstop : stopTest (xs i) xl = true
        · rw [hstop] at h; simp at h
        · have hstop2 : stopTest (xs i) xl = false := by simpa using hstop
          rw [hstop2] at h
          simp only [Bool.false_eq_true, if_false] at h
          obtain ⟨hik, hx, hxl⟩ := ih xs (xs i) (i + 1) k x xl2 h
          refine ⟨le_trans (Nat.le_succ i) hik, hx, ?_⟩
          have hkne : k ≠ i := by omega
          rw [if_neg hkne]
          by_cases hk1 : k = i + 1
          · subst hk1
            rw [if_pos rfl] at hxl
            simpa using hxl
          · rw [if_neg hk1] at hxl
            exact hxl

/-- Every entry of the driver trace pairs the just-produced iterate
`xs k` with the previous step's iterate (the sentinel at `k = 0`). -/
theorem pathTrace_compares (xs : ℕ → List ℚ) (x0 : List ℚ) (nlambda : ℕ)
    (k : ℕ) (x xl2 : List ℚ) (hm : (k, x, xl2) ∈ pathTrace xs x0 nlambda) :
    x = xs k ∧ xl2 = xlastSeq xs x0 k := by
  obtain ⟨_, hx, hxl⟩ := pathTraceGo_mem nlambda xs x0 0 k x xl2 hm
  refine ⟨hx, ?_⟩
  cases k with
  | zero => simpa using hxl
  | succ k2 => simpa [xlastSeq] using hxl

/-- With the previous-iterate buffer holding the sentinel value `M` in
every coordinate, the stop test returns "continue" for any first iterate
whose entries are bounded by `c` with `c·(1000 + n) ≤ 1000·M`. -/
theorem sentinel_continue (M c : ℚ) (n : ℕ) (x : List ℚ)
    (hlen : x.length = n) (hn : 1 ≤ n) (hb : ∀ a ∈ x, |a| ≤ c)
    (hM : c * (1000 + (n : ℚ)) ≤ 1000 * M) :
    stopTest x (List.replicate n M) = false := by
  rw [Bool.eq_false_iff]
  intro hcontra
  have hlt := (stopTest_iff x (List.replicate n M)).mp hcontra
  cases x with
  | nil => rw [← hlen] at hn; simp at hn
  | cons a t =>
      have hc0 : |a| ≤ c := hb a (List.mem_cons_self a t)
      have hrep : List.replicate n M = M :: List.replicate t.length M := by
        rw [← hlen]
        rfl
      have hmem : ((a, M) : ℚ × ℚ) ∈ (a :: t).zip (List.replicate n M) := by
        rw [hrep]
        exact List.mem_cons_self (a, M) (t.zip (List.replicate t.length M))
      have h1 : |a - M| ≤ MaxDiff (a :: t) (List.replicate n M) := by
        have := abs_sub_le_MaxDiff (a :: t) (List.replicate n M) (a, M) hmem
        simpa using this
      have h2 : M - c ≤ |a - M| := by
        have ha1 : M - a ≤ |a - M| := by
          rw [abs_sub_comm]
          exact le_abs_self (M - a)
        have ha2 : a ≤ c := le_trans (le_abs_self a) hc0
        linarith
      have h3 : Asum (a :: t) ≤ (n : ℚ) * c := by
        rw [Asum_eq_sum_abs]
        have hbound := List.sum_le_card_nsmul ((a :: t).map (fun q => |q|)) c
          (fun q hq => by
            obtain ⟨r, hr, rfl⟩ := List.mem_map.mp hq
            exact hb r hr)
        rw [List.length_map, hlen] at hbound
        simpa [nsmul_eq_mul] using hbound
      have hfinal : (1 / 1000) * Asum (a :: t) ≤ MaxDiff (a :: t) (List.replicate n M) := by
        have hmid : (1 / 1000) * ((n : ℚ) * c) ≤ M - c := by nlinarith
        have hstep : (1 / 1000) * Asum (a :: t) ≤ (1 / 1000) * ((n : ℚ) * c) := by
          nlinarith
        linarith
      linarith

/-- `MaxDiff` is invariant under a common permutation of the zipped
index ranges of the two vectors. -/
theorem MaxDiff_perm (x xp y yp : List ℚ) (hperm : (x.zip xp).Perm (y.zip yp)) :
    MaxDiff x xp = MaxDiff y yp := by
  unfold MaxDiff
  refine hperm.foldl_eq' ?_ 0
  intro p _ q _ z
  rw [max_assoc, max_comm |p.1 - p.2|, ← max_assoc]

/-- `Asum` is invariant under permutation of its input. -/
theorem Asum_perm (x y : List ℚ) (hperm : x.Perm y) : Asum x = Asum y := by
  unfold Asum
  refine hperm.foldl_eq' ?_ 0
  intro p _ q _ z
  ring

/- ### Function descriptors and the per-step driver state

Modelled from the spec: the header `pogs.h` defining `FunctionObj` and
`PogsData` is not under `src/`; only its use sites are.  Per spec §3 a
FunctionDescriptor is `{kind, scale, offset}`; the source writes the
current λ into each column descriptor's scale field (`g[i].c = lambda`,
lasso_path.cpp line 90), builds one row descriptor `(kSquare, 1, b[i])`
per row (lines 73–75) and one column descriptor of kind `kAbs` per
column (lines 77–79). -/

theorem setScalesFold_shift (lam : ℚ) :
    ∀ (L : List ℕ) (a : FunctionObj) (g : List FunctionObj),
      L.foldl (fun gs i => gs.set (i + 1) { gs.getD (i + 1) default with scale := lam }) (a :: g)
        = a :: L.foldl (fun gs i => gs.set i { gs.getD i default with scale := lam }) g := by
  intro L
  induction L with
  | nil => intro a g; rfl
  | cons i L ih =>
      intro a g
      rw [List.foldl_cons, List.foldl_cons]
      have hset : (a :: g).set (i + 1) { (a :: g).getD (i + 1) default with scale := lam }
          = a :: g.set i { g.getD i default with scale := lam } := rfl
      rw [hset, ih]

theorem setScales_cons (d : FunctionObj) (g : List FunctionObj) (lam : ℚ) :
    setScales (d :: g) lam = { d with scale := lam } :: setScales g lam := by
  unfold setScales
  rw [List.length_cons, List.range_succ_eq_map, List.foldl_cons, List.foldl_map]
  have hset : (d :: g).set 0 { (d :: g).getD 0 default with scale := lam }
      = { d with scale := lam } :: g := rfl
  rw [hset]
  exact setScalesFold_shift lam (List.range g.length) { d with scale := lam } g

/-- The index loop writing `g[i].c = lambda` is exactly a map over the
column-descriptor list. -/
theorem setScales_eq_map (g : List FunctionObj) (lam : ℚ) :
    setScales g lam = g.map (fun d => { d with scale := lam }) := by
  induction g with
  | nil => rfl
  | cons d g ih => rw [setScales_cons, ih, List.map_cons]

/-- C3: the driver computes `u = Aᵗb` by accumulating
`u[col_ind[j]] += val[j]·b[i]` over all nonzeros and sets
`λ_max = max_j |u[j]|`; for A = [[2,0],[0,3]] and b = [1,1] it computes
u = [2,3] and λ_max = 3. -/
theorem claim3_lambda_max_correct :
    (∀ (val : List ℚ) (colInd rowPtr : List ℕ) (b : List ℚ) (m n : ℕ),
      (∀ i ∈ List.range m, ∀ k ∈ List.range' (rowPtr.getD i 0)
        (rowPtr.getD (i + 1) 0 - rowPtr.getD i 0), colInd.getD k 0 < n) →
      ∀ j, (computeU val colInd rowPtr b m n).getD j 0 = matTvec val colInd rowPtr b m j)
    ∧ (∀ u : List ℚ, (∀ a ∈ u, |a| ≤ lambdaMax u) ∧
        (lambdaMax u = 0 ∨ ∃ a ∈ u, lambdaMax u = |a|))
    ∧ computeU [2, 3] [0, 1] [0, 1, 2] [1, 1] 2 2 = [2, 3]
    ∧ lambdaMax [2, 3] = 3 := by
  refine ⟨?_, ?_, ?_, ?_⟩
  · intro val colInd rowPtr b m n hcol j
    exact computeU_correct val colInd rowPtr b m n hcol j
  · intro u
    exact ⟨fun a ha => lambdaMax_is_bound u a ha, lambdaMax_attained u⟩
  · norm_num [computeU, rowUpdate, addAt, List.range, List.range',
      List.range.loop, List.replicate, List.set]
  · norm_num [lambdaMax, max_def, abs]

/-- C3 witness: the general Aᵗb theorem applied to the concrete
2×2 example at column 1. -/
theorem claim3_lambda_max_correct_witness :
    (computeU [2, 3] [0, 1] [0, 1, 2] [1, 1] 2 2).getD 1 0
      = matTvec [2, 3] [0, 1] [0, 1, 2] [1, 1] 2 1 :=
  claim3_lambda_max_correct.1 [2, 3] [0, 1] [0, 1, 2] [1, 1] 2 2 (by decide) 1

/-- C4: the early-stop test computes `maxDiff = max_j |x_j − xprev_j|`
and `asum = Σ_j |x_j|` and stops exactly when `maxDiff < 1e-3·asum`; for
x = [1,1,1,1], x_prev = [1,1,1,1.0005] it stops with maxDiff = 0.0005
and asum = 4. -/
theorem claim4_stop_test :
    (∀ x xp : List ℚ, stopTest x xp = true ↔ MaxDiff x xp < (1 / 1000) * Asum x)
    ∧ (∀ x : List ℚ, Asum x = (x.map (fun a => |a|)).sum)
    ∧ (∀ x xp : List ℚ, ∀ p ∈ x.zip xp, |p.1 - p.2| ≤ MaxDiff x xp)
    ∧ MaxDiff [1, 1, 1, 1] [1, 1, 1, 2001 / 2000] = 1 / 2000
    ∧ Asum [1, 1, 1, 1] = 4
    ∧ stopTest [1, 1, 1, 1] [1, 1, 1, 2001 / 2000] = true := by
  refine ⟨stopTest_iff, Asum_eq_sum_abs, ?_, ?_, ?_, ?_⟩
  · intro x xp p hp
    exact abs_sub_le_MaxDiff x xp p hp
  · norm_num [MaxDiff, List.zip, List.zipWith, max_def, abs]
  · norm_num [Asum, abs]
  · norm_num [stopTest, MaxDiff, Asum, List.zip, List.zipWith, max_def, abs]

/-- C4 witness: the per-coordinate bound applied at the concrete pair. -/
theorem claim4_stop_test_witness :
    |(1 : ℚ) - 2001 / 2000| ≤ MaxDiff [1, 1, 1, 1] [1, 1, 1, 2001 / 2000] :=
  claim4_stop_test.2.2.1 [1, 1, 1, 1] [1, 1, 1, 2001 / 2000] (1, 2001 / 2000)
    (by norm_num [List.zip, List.zipWith])

/-- C5 counterexample: on x = x_prev = [0,0,0] the test does NOT stop,
because the strict comparison `0 < 0` is false. -/
theorem claim5_zero_counterexample :
    stopTest [0, 0, 0] [0, 0, 0] = false := by
  norm_num [stopTest, MaxDiff, Asum, List.zip, List.zipWith, max_def, abs]

/-- C5 (amended): for x = x_prev = [0,0,0], maxDiff = 0 and asum = 0, and
the convergence test evaluates to stop = false (continue), since the
code's strict inequality `0 < 0` fails. -/
theorem claim5_zero_boundary :
    MaxDiff [0, 0, 0] [0, 0, 0] = 0 ∧ Asum [0, 0, 0] = 0
    ∧ stopTest [0, 0, 0] [0, 0, 0] = false := by
  refine ⟨?_, ?_, ?_⟩ <;>
    norm_num [stopTest, MaxDiff, Asum, List.zip, List.zipWith, max_def, abs]

theorem fireAt_bridge (xs : ℕ → List ℚ) (x0 : List ℚ) (j : ℕ) :
    stopTest (xs (0 + j)) (if j = 0 then x0 else xs (0 + j - 1)) = fireAt xs x0 j := by
  cases j with
  | zero => simp [fireAt, xlastSeq]
  | succ t => simp [fireAt, xlastSeq]

/-- C6 (amended): the number of path steps is at most nλ, and the driver
performs fewer than nλ steps exactly when the convergence test first
fires at a step k with k+1 < nλ; a first firing at the final step still
performs all nλ solver invocations. -/
theorem claim6_steps_amended :
    ∀ (xs : ℕ → List ℚ) (x0 : List ℚ) (nl : ℕ),
      pathSteps xs x0 nl ≤ nl ∧
      (pathSteps xs x0 nl < nl ↔
        ∃ k, k + 1 < nl ∧ fireAt xs x0 k = true ∧
          ∀ j, j < k → fireAt xs x0 j = false) := by
  intro xs x0 nl
  refine ⟨pathGo_le nl xs x0 0, ?_, ?_⟩
  · intro hlt
    have hex : ∃ k, fireAt xs x0 k = true := by
      by_contra hno
      push_neg at hno
      have hall : ∀ j, fireAt xs x0 j = false := by
        intro j
        have := hno j
        simpa using this
      have heq : pathSteps xs x0 nl = nl :=
        pathGo_all_not nl xs x0 0 (fun j _ => by rw [fireAt_bridge]; exact hall j)
      omega
    classical
    have hk0 := Nat.find_spec hex
    have hmin := fun j (hj : j < Nat.find hex) => Nat.find_min hex hj
    by_cases hlast : Nat.find hex + 1 < nl
    · exact ⟨Nat.find hex, hlast, hk0,
        fun j hj => by
          have := hmin j hj
          simpa using this⟩
    · exfalso
      by_cases hfin : Nat.find hex < nl
      · have heq : pathSteps xs x0 nl = Nat.find hex + 1 :=
          pathGo_fire nl xs x0 0 (Nat.find hex) hfin
            (fun j hj => by
              rw [fireAt_bridge]
              have := hmin j hj
              simpa using this)
            (by rw [fireAt_bridge]; exact hk0)
        omega
      · have heq : pathSteps xs x0 nl = nl :=
          pathGo_all_not nl xs x0 0 (fun j hj => by
            rw [fireAt_bridge]
            have := hmin j (by omega)
            simpa using this)
        omega
  · rintro ⟨k, hk1, hfire, hminl⟩
    have heq : pathSteps xs x0 nl = k + 1 :=
      pathGo_fire nl xs x0 0 k (by omega)
        (fun j hj => by rw [fireAt_bridge]; exact hminl j hj)
        (by rw [fireAt_bridge]; exact hfire)
    omega

/-- C6 counterexample: with nλ = 2, solver output always [1] and
sentinel [1000], the test fires at executed step 1 (the final step), yet
the driver performs all 2 steps — so "terminates before completing all
nλ steps iff the test fires at some step" is false as stated. -/
theorem claim6_counterexample :
    pathSteps (fun _ => [1]) [1000] 2 = 2
    ∧ fireAt (fun _ => [1]) [1000] 1 = true
    ∧ fireAt (fun _ => [1]) [1000] 0 = false := by
  refine ⟨?_, ?_, ?_⟩ <;>
    norm_num [pathSteps, pathGo, fireAt, xlastSeq, stopTest, MaxDiff, Asum,
      List.zip, List.zipWith, max_def, abs]

/-- C6 witness: the characterization applied at the concrete run that
exhausts the schedule (nλ = 1, no firing among steps below nλ − 1). -/
theorem claim6_steps_amended_witness :
    pathSteps (fun _ => ([] : List ℚ)) [] 1 ≤ 1 :=
  (claim6_steps_amended (fun _ => []) [] 1).1

/-- C7 (amended): every executed step's convergence test compares the
just-produced iterate `xs k` against the previous step's iterate
(`xlastSeq`: the sentinel buffer at k = 0, `xs (k−1)` afterwards, the
buffer being updated only on "continue"); and with the sentinel `M` in
the buffer the step-0 test evaluates to "continue" for every first
solution bounded by `c` with `c·(1000+n) ≤ 1000·M` — not for arbitrary
first solutions. -/
theorem claim7_prev_iterate_amended :
    (∀ (xs : ℕ → List ℚ) (x0 : List ℚ) (nl k : ℕ) (x xl2 : List ℚ),
      (k, x, xl2) ∈ pathTrace xs x0 nl → x = xs k ∧ xl2 = xlastSeq xs x0 k)
    ∧ (∀ (M c : ℚ) (n : ℕ) (x : List ℚ), x.length = n → 1 ≤ n →
        (∀ a ∈ x, |a| ≤ c) → c * (1000 + (n : ℚ)) ≤ 1000 * M →
        stopTest x (List.replicate n M) = false) :=
  ⟨fun xs x0 nl k x xl2 hm => pathTrace_compares xs x0 nl k x xl2 hm,
   fun M c n x hlen hn hb hM => sentinel_continue M c n x hlen hn hb hM⟩

/-- C7 witness: the trace property at a concrete one-step run, and the
sentinel-continue property at x = [1], M = 5. -/
theorem claim7_prev_iterate_amended_witness :
    (([1] : List ℚ) = (fun _ => ([1] : List ℚ)) 0
      ∧ ([1000] : List ℚ) = xlastSeq (fun _ => [1]) [1000] 0)
    ∧ stopTest [1] (List.replicate 1 5) = false :=
  ⟨claim7_prev_iterate_amended.1 (fun _ => [1]) [1000] 1 0 [1] [1000]
      (by simp [pathTrace, pathTraceGo]),
   claim7_prev_iterate_amended.2 5 1 1 [1] rfl (le_refl 1)
      (fun a ha => by
        rw [List.mem_singleton] at ha
        rw [ha]
        norm_num)
      (by norm_num)⟩

/-- C7 counterexample: the step-0 comparison does NOT evaluate to
"continue" regardless of the first solution: with the buffer holding the
sentinel value 1000 in each coordinate and the first solution equal to
that same vector, the test stops at step 0 and the driver performs
exactly one of its 5 scheduled steps. -/
theorem claim7_counterexample :
    stopTest (List.replicate 1 (1000 : ℚ)) (List.replicate 1 (1000 : ℚ)) = true
    ∧ pathSteps (fun _ => List.replicate 1 (1000 : ℚ))
        (List.replicate 1 (1000 : ℚ)) 5 = 1 := by
  refine ⟨?_, ?_⟩ <;>
    norm_num [pathSteps, pathGo, stopTest, MaxDiff, Asum, List.replicate,
      List.zip, List.zipWith, max_def, abs]

/-- C8: between path steps the driver mutates only the scale of each of
the n column descriptors (overwriting it with the step's λ before the
solver call); the row descriptors (kind Square, scale 1, offset b[row]),
the matrix A and b are unchanged across all path steps. -/
theorem claim8_frame :
    (∀ (g : List FunctionObj) (lam : ℚ),
        setScales g lam = g.map (fun d => { d with scale := lam }))
    ∧ (∀ (s : DriverState) (lam : ℚ) (xy : List ℚ × List ℚ),
        (pathStepState lam xy s).f = s.f
        ∧ (pathStepState lam xy s).Aval = s.Aval
        ∧ (pathStepState lam xy s).AcolInd = s.AcolInd
        ∧ (pathStepState lam xy s).ArowPtr = s.ArowPtr
        ∧ (pathStepState lam xy s).b = s.b
        ∧ (pathStepState lam xy s).g.map (fun d => (d.kind, d.offset))
            = s.g.map (fun d => (d.kind, d.offset))
        ∧ ∀ d ∈ (pathStepState lam xy s).g, d.scale = lam)
    ∧ (∀ (steps : List (ℚ × List ℚ × List ℚ)) (s : DriverState),
        (applyPath steps s).f = s.f
        ∧ (applyPath steps s).Aval = s.Aval
        ∧ (applyPath steps s).AcolInd = s.AcolInd
        ∧ (applyPath steps s).ArowPtr = s.ArowPtr
        ∧ (applyPath steps s).b = s.b)
    ∧ (∀ b0 : List ℚ, (∀ d ∈ buildF b0, d.kind = FnKind.kSquare ∧ d.scale = 1)
        ∧ (buildF b0).map FunctionObj.offset = b0) := by
  refine ⟨setScales_eq_map, ?_, ?_, ?_⟩
  · intro s lam xy
    refine ⟨rfl, rfl, rfl, rfl, rfl, ?_, ?_⟩
    · show (setScales s.g lam).map (fun d => (d.kind, d.offset))
        = s.g.map (fun d => (d.kind, d.offset))
      rw [setScales_eq_map, List.map_map]
      rfl
    · intro d hd
      show d.scale = lam
      rw [pathStepState] at hd
      simp only at hd
      rw [setScales_eq_map] at hd
      obtain ⟨e, _, rfl⟩ := List.mem_map.mp hd
      rfl
  · intro steps
    induction steps with
    | nil => intro s; exact ⟨rfl, rfl, rfl, rfl, rfl⟩
    | cons p steps ih =>
        intro s
        have hstep := ih (pathStepState p.1 p.2 s)
        unfold applyPath at hstep
        unfold applyPath
        rw [List.foldl_cons]
        exact hstep
  · intro b0
    constructor
    · intro d hd
      obtain ⟨bi, _, rfl⟩ := List.mem_map.mp hd
      exact ⟨rfl, rfl⟩
    · unfold buildF
      rw [List.map_map]
      exact List.map_id b0

/-- C8 witness: the frame and scale-update facts at a concrete state
with a single penalty descriptor and λ = 7. -/
theorem claim8_frame_witness :
    (pathStepState 7 ([], []) exState).f = exState.f
    ∧ ({ kind := FnKind.kAbs, scale := 7, offset := 0 } : FunctionObj).scale = 7 :=
  ⟨(claim8_frame.2.1 exState 7 ([], [])).1,
   (claim8_frame.2.1 exState 7 ([], [])).2.2.2.2.2.2
      { kind := FnKind.kAbs, scale := 7, offset := 0 }
      (by
        show _ ∈ setScales exState.g 7
        rw [setScales_eq_map]
        simp [exState])⟩

/-- C9: `MaxDiff` and `Asum` are invariant under a common permutation of
the indices of x and x_prev. -/
theorem claim9_perm_invariant :
    (∀ x xp y yp : List ℚ, (x.zip xp).Perm (y.zip yp) → MaxDiff x xp = MaxDiff y yp)
    ∧ (∀ x y : List ℚ, x.Perm y → Asum x = Asum y) :=
  ⟨fun x xp y yp hperm => MaxDiff_perm x xp y yp hperm,
   fun x y hperm => Asum_perm x y hperm⟩

/-- C9 witness: the invariance applied to the swap of a two-element
vector pair. -/
theorem claim9_perm_invariant_witness :
    MaxDiff [1, 2] [3, 4] = MaxDiff [2, 1] [4, 3] ∧ Asum [1, 2] = Asum [2, 1] :=
  ⟨claim9_perm_invariant.1 [1, 2] [3, 4] [2, 1] [4, 3]
      (List.Perm.swap (2, 4) (1, 3) []),
   claim9_perm_invariant.2 [1, 2] [2, 1] (List.Perm.swap 2 1 [])⟩

/-- C10: with solution dimension n = 0, `MaxDiff` and `Asum` return 0,
the strict stop test `0 < 0` never fires, and the driver performs all nλ
path steps. -/
theorem claim10_empty_runs_full :
    MaxDiff [] [] = 0 ∧ Asum [] = 0 ∧ stopTest [] [] = false
    ∧ ∀ nl : ℕ, pathSteps (fun _ => []) [] nl = nl := by
  have hstop : stopTest [] [] = false := by
    norm_num [stopTest, MaxDiff, Asum]
  refine ⟨rfl, rfl, hstop, ?_⟩
  intro nl
  refine pathGo_all_not nl (fun _ => []) [] 0 (fun j _ => ?_)
  have hif : (if j = 0 then ([] : List ℚ) else []) = [] := by split <;> rfl
  rw [hif]
  exact hstop

/-- C1 (divergence of the code from the claim at the failing input
λ_max = e⁻¹, nλ = 100): the code's schedule starts at λ_max as claimed,
but is strictly INCREASING at the first step (λ_0 < λ_1), and its last
value is λ_max^(1/100) = e^(−1/100), not 10⁻²·λ_max.  The code computes
`1e-2 * log(λ_max)` where the intended interpolation endpoint is
`log(1e-2 · λ_max)`. -/
theorem claim1_schedule_bug :
    lambdaSched (Real.exp (-1)) 100 0 = Real.exp (-1)
    ∧ lambdaSched (Real.exp (-1)) 100 0 < lambdaSched (Real.exp (-1)) 100 1
    ∧ lambdaSched (Real.exp (-1)) 100 99 = Real.exp (-(1 / 100))
    ∧ lambdaSched (Real.exp (-1)) 100 99 ≠ (1 / 100) * Real.exp (-1) := by
  have h99 : lambdaSched (Real.exp (-1)) 100 99 = Real.exp (-(1 / 100)) := by
    unfold lambdaSched
    rw [Real.log_exp]
    norm_num
  refine ⟨?_, ?_, h99, ?_⟩
  · unfold lambdaSched
    rw [Real.log_exp]
    norm_num
  · unfold lambdaSched
    rw [Real.log_exp]
    rw [Real.exp_lt_exp]
    norm_num
  · rw [h99]
    have h1 : (1 / 100 : ℝ) * Real.exp (-1) < Real.exp (-1) := by
      nlinarith [Real.exp_pos (-1)]
    have h2 : Real.exp (-1) < Real.exp (-(1 / 100)) := by
      rw [Real.exp_lt_exp]
      norm_num
    exact ne_of_gt (lt_trans h1 h2)

/-- C2 (divergence of the code from the claim): the driver contains no
guard on λ_max — the schedule construction is unconditional (100 values
are produced even for λ_max = 0, each passing λ_max to `log`), and the
loop always performs at least one solver invocation instead of
returning immediately. -/
theorem claim2_no_zero_guard :
    (pathLambdas 0 100).length = 100
    ∧ (∀ lmax : ℝ, (pathLambdas lmax 100).length = 100)
    ∧ (∀ (xs : ℕ → List ℚ) (x0 : List ℚ), 1 ≤ pathSteps xs x0 100) := by
  refine ⟨?_, ?_, ?_⟩
  · simp [pathLambdas]
  · intro lmax
    simp [pathLambdas]
  · intro xs x0
    have heq : pathSteps xs x0 100
        = 1 + (if stopTest (xs 0) x0 then 0 else pathGo xs (xs 0) 1 99) := rfl
    rw [heq]
    omega

end LassoPathSpec
